import Mathlib

/-!
Verification of the distlock lock manager (Go sources, package locking and
package httpserver) against its natural-language specification.

The Go sources are shallowly embedded as pure Lean functions:

* machine integers (int64 ticket ids, time.Duration nanosecond counts,
  monotonic instants) are modelled as Int; none of the verified claims
  depends on 64-bit wraparound;
* each channel send of an acquisition outcome (ticketImpl.acquiredChan)
  is modelled as an explicit event, a pair of the ticket id and the
  boolean sent; every operation returns the list of events it emits, in
  emission order;
* the managerImpl mutex serializes operations, so each operation is a
  pure state transformer on the manager state; the monotonic clock reads
  performed while the mutex is held during one operation are modelled as
  a single instant passed as the parameter now;
* Go tickets are heap pointers shared between the manager queues and the
  callers.  The manager is the only mutator, and mutations happen under
  the mutex, so queues are modelled as lists of immutable records and an
  in-place ticket mutation is modelled by storing the updated record.
  In particular managerImpl.maintainPath only reassigns the map entry
  when the queue length changed, relying on pointer aliasing to make the
  head promotion visible otherwise; the embedding always stores the
  post-promotion queue, which is the same observable state.
-/

namespace Distlock

/-! ### Path validation (locking/path.go) -/

/-- One character of the character class of validPathExpr, the Go regular
expression caret [\w\-]+(?:\/[\w\-]+)*dollar; \w is ASCII [0-9A-Za-z_]. -/
def isWordChar (c : Char) : Bool :=
  c.isAlphanum || c == '_' || c == '-'

/-- The leading-slash stripping loop of ValidateLockPath. -/
def stripLeadingSlashes : List Char → List Char
  | '/' :: rest => stripLeadingSlashes rest
  | l => l

/-- Recognizer for validPathExpr.  The flag records whether the automaton
still has to read at least one word character to finish the current
segment (true right after the start or after a slash). -/
def matchPathFrom : Bool → List Char → Bool
  | needSeg, [] => !needSeg
  | needSeg, c :: rest =>
    if needSeg then isWordChar c && matchPathFrom false rest
    else if c = '/' then matchPathFrom true rest
    else isWordChar c && matchPathFrom false rest

/-- ValidateLockPath: strip leading slashes, then accept iff the remainder
matches validPathExpr.  none models the ErrPathInvalid error return. -/
def ValidateLockPath (path : String) : Option String :=
  let stripped := String.mk (stripLeadingSlashes path.data)
  if matchPathFrom true stripped.data then some stripped else none

/-! ### Duration parsing (httpserver/duration.go) -/

/-- strconv.ParseInt with base 10 and bitSize 64, as used by ParseDuration:
the error is discarded, so a syntax error yields 0 and a range error
yields the clamped maximum. -/
def goParseInt64 (s : String) : Int :=
  if s.data ≠ [] && s.data.all Char.isDigit then
    let v : Int := Int.ofNat (s.data.foldl (fun acc c => 10 * acc + (c.toNat - 48)) 0)
    if v ≤ 2 ^ 63 - 1 then v else 2 ^ 63 - 1
  else 0

/-- Submatch extraction for durationExpr, the Go regular expression
caret (\d+)(ms|s|m|h)dollar: the maximal digit prefix followed by exactly
one unit suffix.  Returns (first group, second group) on a match. -/
def durationSubmatch (s : String) : Option (String × String) :=
  let digits := s.data.takeWhile Char.isDigit
  let rest := s.data.drop digits.length
  if digits.isEmpty then none
  else if rest = "ms".data || rest = "s".data || rest = "m".data || rest = "h".data then
    some (String.mk digits, String.mk rest)
  else none

/-- ParseDuration, translated literally from httpserver/duration.go.  The
result is in nanoseconds (the unit of time.Duration); none models
ErrInvalidDuration.  Note the source reads the numerator from match[0]
(the full match) and selects the unit by comparing match[1] (the digit
group) against the unit names. -/
def ParseDuration (dur : String) : Option Int :=
  if dur = "0" then some 0
  else
    match durationSubmatch dur with
    | none => none
    | some (group1, _) =>
      let numerator := goParseInt64 dur
      let result :=
        if group1 = "ms" then numerator * 1000000
        else if group1 = "s" then numerator * 1000000000
        else if group1 = "m" then numerator * 60000000000
        else if group1 = "h" then numerator * 3600000000000
        else numerator
      some result

/-! ### Tickets and locks (locking/ticket.go, locking/manager.go) -/

/-- Lock ticket (ticketImpl).  A zero acquireTimeoutAt or leaseTimeoutAt
means the corresponding deadline is unset.  The acquisition channel is
modelled by the outcome events returned from each manager operation. -/
structure ticketImpl where
  id : Int
  firstLeaseTimeout : Int
  acquireTimeoutAt : Int
  leaseTimeoutAt : Int
deriving Repr, DecidableEq

/-- One acquisition outcome delivery: the ticket id and the boolean sent
on its acquiredChan. -/
abbrev Outcome := Int × Bool

/-- Per-path lock state: the ordered ticket queue (lockImpl.tickets). -/
abbrev lockImpl := List ticketImpl

/-- Lock acquirer state (locking/state.go). -/
structure LockAcquirerState where
  Id : Int
  Timeout : Int
deriving Repr, DecidableEq

/-- Lock state (locking/state.go). -/
structure LockState where
  LockingId : Int
  LockTimeout : Int
  Acquirers : List LockAcquirerState
deriving Repr, DecidableEq

/-- Lock manager state: the path-to-lock map and the ticket id counter.
The maintenance bookkeeping (pending-path slice, stop channel, timers)
only schedules future maintainPath calls and carries no lock state, so
it is not part of the embedded state. -/
structure managerImpl where
  locks : String → Option lockImpl
  nextTicketId : Int

/-- NewManager with the ticket counter seeded at an arbitrary value (the
source seeds it from a random number generator). -/
def newManager (seed : Int) : managerImpl :=
  { locks := fun _ => none, nextTicketId := seed }

/-- Go map assignment m.locks[path] = lock. -/
def managerImpl.setLock (m : managerImpl) (path : String) (l : lockImpl) : managerImpl :=
  { m with locks := fun p => if p = path then some l else m.locks p }

/-- Go map deletion delete(m.locks, path). -/
def managerImpl.eraseLock (m : managerImpl) (path : String) : managerImpl :=
  { m with locks := fun p => if p = path then none else m.locks p }

/-- Survival test of one maintainPath loop iteration: a ticket with a
lease deadline set stays until its lease deadline, any other ticket stays
until its acquisition deadline. -/
def keepTicket (now : Int) (t : ticketImpl) : Bool :=
  if 0 < t.leaseTimeoutAt then now < t.leaseTimeoutAt else now < t.acquireTimeoutAt

/-- The outcome events emitted by the maintainPath loop: every dropped
ticket without a lease deadline is told that acquisition failed. -/
def droppedWaiterEvents (now : Int) (ts : lockImpl) : List Outcome :=
  ts.filterMap fun t =>
    if 0 < t.leaseTimeoutAt then none
    else if now < t.acquireTimeoutAt then none
    else some (t.id, false)

/-- The head-promotion block of maintainPath: if the surviving head has no
lease deadline, its lease deadline becomes now plus its first lease
timeout and it is told that acquisition succeeded. -/
def promoteHead (now : Int) : lockImpl → lockImpl × List Outcome
  | [] => ([], [])
  | h :: rest =>
    if h.leaseTimeoutAt = 0 then
      ({ h with leaseTimeoutAt := now + h.firstLeaseTimeout } :: rest, [(h.id, true)])
    else (h :: rest, [])

/-- managerImpl.maintainPath.  Runs under the manager mutex; now stands
for the monotonic clock reads performed during the call. -/
def managerImpl.maintainPath (m : managerImpl) (path : String) (now : Int) :
    managerImpl × List Outcome :=
  match m.locks path with
  | none => (m, [])
  | some ts =>
    if ts.isEmpty then (m, [])
    else
      let nextTickets := ts.filter (keepTicket now)
      let events := droppedWaiterEvents now ts
      let promoted := promoteHead now nextTickets
      if promoted.1.isEmpty then (m.eraseLock path, events ++ promoted.2)
      else (m.setLock path promoted.1, events ++ promoted.2)

/-- The body of managerImpl.Release after path validation. -/
def managerImpl.releasePath (m : managerImpl) (path : String) (id : Int) (now : Int) :
    managerImpl × Bool × List Outcome :=
  match m.locks path with
  | none => (m, false, [])
  | some ts =>
    if ts.isEmpty then (m, false, [])
    else
      let found := ts.any fun t => t.id = id
      let events := ts.filterMap fun t =>
        if t.id = id && t.leaseTimeoutAt = 0 then some (t.id, false) else none
      let nextTickets := ts.filter fun t => t.id ≠ id
      if nextTickets.isEmpty then (m.eraseLock path, found, events)
      else
        let mres := (m.setLock path nextTickets).maintainPath path now
        (mres.1, found, events ++ mres.2)

/-- managerImpl.Release: validate the path, then update the lock. -/
def managerImpl.Release (m : managerImpl) (path : String) (id : Int) (now : Int) :
    Option (managerImpl × Bool × List Outcome) :=
  (ValidateLockPath path).map fun cleaned => m.releasePath cleaned id now

/-- The body of managerImpl.Extend after path validation. -/
def managerImpl.extendPath (m : managerImpl) (path : String) (id : Int)
    (timeout now : Int) : managerImpl × Bool :=
  match m.locks path with
  | none => (m, false)
  | some [] => (m, false)
  | some (headTicket :: rest) =>
    if headTicket.id = id then
      (m.setLock path ({ headTicket with leaseTimeoutAt := now + timeout } :: rest), true)
    else (m, false)

/-- managerImpl.Extend: validate the path, then update the lock. -/
def managerImpl.Extend (m : managerImpl) (path : String) (id : Int) (timeout now : Int) :
    Option (managerImpl × Bool) :=
  (ValidateLockPath path).map fun cleaned => m.extendPath cleaned id timeout now

/-- The body of managerImpl.Acquire after path validation. -/
def managerImpl.acquirePath (m : managerImpl) (path : String)
    (lockTimeout leaseTimeout now : Int) : managerImpl × ticketImpl × List Outcome :=
  let nextId := if m.nextTicketId = 0 then m.nextTicketId + 1 else m.nextTicketId
  let ticket : ticketImpl :=
    { id := nextId, firstLeaseTimeout := leaseTimeout, acquireTimeoutAt := 0, leaseTimeoutAt := 0 }
  let m1 : managerImpl := { m with nextTicketId := nextId + 1 }
  let prevTickets := (m.locks path).getD []
  if prevTickets.isEmpty then
    let t := { ticket with leaseTimeoutAt := now + leaseTimeout }
    (m1.setLock path [t], t, [(t.id, true)])
  else if lockTimeout ≤ 0 then
    (m1, ticket, [(ticket.id, false)])
  else
    let t := { ticket with acquireTimeoutAt := now + lockTimeout }
    (m1.setLock path (prevTickets ++ [t]), t, [])

/-- managerImpl.Acquire: validate the path, then create the ticket and
evaluate locking. -/
def managerImpl.Acquire (m : managerImpl) (path : String)
    (lockTimeout leaseTimeout now : Int) : Option (managerImpl × ticketImpl × List Outcome) :=
  (ValidateLockPath path).map fun cleaned => m.acquirePath cleaned lockTimeout leaseTimeout now

/-- The body of managerImpl.IsLocked after path validation. -/
def managerImpl.isLockedPath (m : managerImpl) (path : String) : Int :=
  match m.locks path with
  | none => 0
  | some [] => 0
  | some (h :: _) => h.id

/-- managerImpl.IsLocked: validate the path, then read the head id. -/
def managerImpl.IsLocked (m : managerImpl) (path : String) : Option Int :=
  (ValidateLockPath path).map fun cleaned => m.isLockedPath cleaned

/-- The body of managerImpl.Inspect after path validation. -/
def managerImpl.inspectPath (m : managerImpl) (path : String) (now : Int) : LockState :=
  match m.locks path with
  | none => { LockingId := 0, LockTimeout := 0, Acquirers := [] }
  | some [] => { LockingId := 0, LockTimeout := 0, Acquirers := [] }
  | some (h :: rest) =>
    { LockingId := h.id
      LockTimeout := h.leaseTimeoutAt - now
      Acquirers := rest.map fun t => { Id := t.id, Timeout := t.acquireTimeoutAt - now } }

/-- managerImpl.Inspect: validate the path, then build the lock state. -/
def managerImpl.Inspect (m : managerImpl) (path : String) (now : Int) : Option LockState :=
  (ValidateLockPath path).map fun cleaned => m.inspectPath cleaned now

/-! ### Spec-side path recognizer

The specification describes a valid normalized path as nonempty segments
of characters A to Z, a to z, 0 to 9, underscore and hyphen, joined by
single slashes.  The following definitions follow that wording; they are
compared with the source recognizer matchPathFrom below. -/

/-- Modelled from the spec: one character of the class A-Za-z0-9_- . -/
def specSegChar (c : Char) : Bool :=
  (c.val ≥ 65 && c.val ≤ 90) || (c.val ≥ 97 && c.val ≤ 122) || (c.val ≥ 48 && c.val ≤ 57) ||
    c == '_' || c == '-'

/-- Split a character list at every slash; a string with n slashes yields
n + 1 (possibly empty) segments. -/
def splitSegs : List Char → List (List Char)
  | [] => [[]]
  | c :: rest =>
    if c = '/' then [] :: splitSegs rest
    else
      match splitSegs rest with
      | [] => [[c]]
      | s :: ss => (c :: s) :: ss

/-- Modelled from the spec: a normalized path is valid iff every
slash-separated segment is nonempty and made of the allowed characters
(this is the meaning of the regular expression in the spec). -/
def specPathOk (l : List Char) : Bool :=
  (splitSegs l).all fun seg => !seg.isEmpty && seg.all specSegChar

/-! ### Queue well-formedness and reachable manager states -/

/-- Field bounds that hold for every record ever stored in a queue: the
first-lease duration is positive and the two deadline fields are never
negative (a deadline is either unset, i.e. zero, or a positive instant). -/
def recsWF (q : lockImpl) : Prop :=
  ∀ t ∈ q, 0 < t.firstLeaseTimeout ∧ 0 ≤ t.leaseTimeoutAt ∧ 0 ≤ t.acquireTimeoutAt

/-- The head of a stored queue holds a lease. -/
def headWF (q : lockImpl) : Prop :=
  ∀ t ∈ q.take 1, 0 < t.leaseTimeoutAt

/-- Every non-head record is a pure waiter: no lease deadline, and an
acquisition deadline that is set. -/
def tailWF (q : lockImpl) : Prop :=
  ∀ t ∈ q.drop 1, t.leaseTimeoutAt = 0 ∧ 0 < t.acquireTimeoutAt

/-- Well-formedness of one stored queue. -/
def queueWF (q : lockImpl) : Prop :=
  recsWF q ∧ headWF q ∧ tailWF q

/-- Well-formedness of a manager state: every stored queue is well formed. -/
def Inv (m : managerImpl) : Prop :=
  ∀ path q, m.locks path = some q → queueWF q

/-- One serialized manager operation, with the documented preconditions:
the monotonic clock is positive, Acquire is called with a positive lease
timeout and a nonnegative lock timeout, Extend with a nonnegative
timeout.  Paths are arbitrary strings; operations on paths that fail
validation never reach these state transformers, so this relation covers
a superset of the transitions of the running system. -/
inductive Step : managerImpl → managerImpl → Prop
  | acquire (m : managerImpl) (path : String) (lockTimeout leaseTimeout now : Int)
      (hnow : 0 < now) (hlease : 0 < leaseTimeout) (hlock : 0 ≤ lockTimeout) :
      Step m (m.acquirePath path lockTimeout leaseTimeout now).1
  | release (m : managerImpl) (path : String) (id now : Int) (hnow : 0 < now) :
      Step m (m.releasePath path id now).1
  | extend (m : managerImpl) (path : String) (id timeout now : Int)
      (hnow : 0 < now) (htimeout : 0 ≤ timeout) :
      Step m (m.extendPath path id timeout now).1
  | maintain (m : managerImpl) (path : String) (now : Int) (hnow : 0 < now) :
      Step m (m.maintainPath path now).1

/-- Manager states reachable from a fresh manager by any sequence of
operations. -/
inductive Reachable : managerImpl → Prop
  | init (seed : Int) : Reachable (newManager seed)
  | step {m m' : managerImpl} : Reachable m → Step m m' → Reachable m'

/-- Concrete state used by several witnesses: a fresh manager after
Acquire("a", 50, 5) at instant 1; path a is held by ticket 1 with lease
deadline 6. -/
def witnessManager1 : managerImpl := ((newManager 1).acquirePath "a" 50 5 1).1

/-- Concrete state used by several witnesses: witnessManager1 after
Acquire("a", 100, 5) at instant 2; ticket 2 waits with acquire deadline
102. -/
def witnessManager2 : managerImpl := (witnessManager1.acquirePath "a" 100 5 2).1

/-! ## Path validation: source recognizer versus spec recognizer -/

theorem isWordChar_eq_specSegChar : isWordChar = specSegChar := rfl

theorem splitSegs_ne_nil (l : List Char) : splitSegs l ≠ [] := by
  cases l with
  | nil => simp [splitSegs]
  | cons c rest =>
    by_cases hc : c = '/'
    · simp [splitSegs, hc]
    · cases hsp : splitSegs rest <;> simp [splitSegs, hc, hsp]

theorem matchPathFrom_eq_spec (l : List Char) :
    matchPathFrom true l = specPathOk l ∧
    matchPathFrom false l =
      ((splitSegs l).headI.all specSegChar &&
        (splitSegs l).tail.all fun seg => !seg.isEmpty && seg.all specSegChar) := by
  induction l with
  | nil =>
    constructor <;> simp [matchPathFrom, specPathOk, splitSegs]
  | cons c rest ih =>
    obtain ⟨ih1, ih2⟩ := ih
    by_cases hc : c = '/'
    · subst hc
      have hw : isWordChar '/' = false := rfl
      constructor
      · simp [matchPathFrom, specPathOk, splitSegs, hw]
      · simp [matchPathFrom, specPathOk, splitSegs, ih1]
    · obtain ⟨s, ss, hsp⟩ : ∃ s ss, splitSegs rest = s :: ss := by
        cases h : splitSegs rest with
        | nil => exact absurd h (splitSegs_ne_nil rest)
        | cons s ss => exact ⟨s, ss, rfl⟩
      have hsplit : splitSegs (c :: rest) = (c :: s) :: ss := by
        simp [splitSegs, hc, hsp]
      constructor
      · show (isWordChar c && matchPathFrom false rest) = _
        rw [isWordChar_eq_specSegChar, ih2, hsp]
        simp [specPathOk, hsplit, hsp, Bool.and_assoc]
      · have hred : matchPathFrom false (c :: rest) = (isWordChar c && matchPathFrom false rest) := by
          simp [matchPathFrom, hc]
        rw [hred, isWordChar_eq_specSegChar, ih2, hsp, hsplit]
        simp [Bool.and_assoc]

/-- C8: path validation strips all leading slash characters and succeeds,
returning the stripped string, exactly when the stripped string consists
of nonempty slash-separated segments of characters A-Za-z0-9_-, and
otherwise fails with the invalid-path error; in particular the strings
"", "/", "a/", "a/b/c/", "aø" and "aø/b" are rejected while "a", "//a",
"a-b" and "a-b-c/095" are accepted and normalize as listed. -/
theorem c8_validate_path :
    (∀ s : String,
      ValidateLockPath s =
        if specPathOk (stripLeadingSlashes s.data) then
          some (String.mk (stripLeadingSlashes s.data))
        else none) ∧
    ValidateLockPath "" = none ∧
    ValidateLockPath "/" = none ∧
    ValidateLockPath "a/" = none ∧
    ValidateLockPath "a/b/c/" = none ∧
    ValidateLockPath "aø" = none ∧
    ValidateLockPath "aø/b" = none ∧
    ValidateLockPath "a" = some "a" ∧
    ValidateLockPath "//a" = some "a" ∧
    ValidateLockPath "a-b" = some "a-b" ∧
    ValidateLockPath "a-b-c/095" = some "a-b-c/095" := by
  refine ⟨fun s => ?_, by decide, by decide, by decide, by decide, by decide,
    by decide, by decide, by decide, by decide, by decide⟩
  show (if matchPathFrom true (stripLeadingSlashes s.data) then _ else _) = _
  rw [(matchPathFrom_eq_spec (stripLeadingSlashes s.data)).1]

/-! ## Duration parsing -/

/-- C9: the claim states that a digits-plus-unit string parses to that
many of the unit.  The code instead feeds the full match (digits and
unit) to strconv.ParseInt, whose error it discards, and compares the
digit group against the unit names, so every matching string parses to
the zero duration.  This contradicts the repository's own handler test
TestHandlerExtendLocker, which extends a lease by the string "5m" and
then requires the remaining lease to have grown. -/
theorem c9_parse_duration_zero :
    (∀ s r, ParseDuration s = some r → r = 0) ∧
    ParseDuration "5m" = some 0 ∧
    ¬ ParseDuration "5m" = some 300000000000 ∧
    ParseDuration "500ms" = some 0 ∧
    ParseDuration "0" = some 0 ∧
    ParseDuration "1d" = none ∧
    ParseDuration "123a" = none ∧
    ParseDuration "" = none := by
  refine ⟨fun s r h => ?_, by decide, by decide, by decide, by decide,
    by decide, by decide, by decide⟩
  unfold ParseDuration at h
  split at h
  · exact (Option.some_inj.mp h).symm
  · revert h
    cases hm : durationSubmatch s with
    | none => intro h; exact absurd h (by simp)
    | some groups =>
      intro h
      obtain ⟨g1, g2⟩ := groups
      have hzero : goParseInt64 s = 0 := by
        unfold durationSubmatch at hm
        by_cases hd : (s.data.takeWhile Char.isDigit).isEmpty
        · simp [hd] at hm
        · have hrest :
              s.data.drop (s.data.takeWhile Char.isDigit).length = "ms".data ∨
              s.data.drop (s.data.takeWhile Char.isDigit).length = "s".data ∨
              s.data.drop (s.data.takeWhile Char.isDigit).length = "m".data ∨
              s.data.drop (s.data.takeWhile Char.isDigit).length = "h".data := by
            by_contra hno
            push_neg at hno
            obtain ⟨h1, h2, h3, h4⟩ := hno
            simp [hd, h1, h2, h3, h4] at hm
          have hnotdigit : ∃ c ∈ s.data, Char.isDigit c = false := by
            rcases hrest with h | h | h | h
            · exact ⟨'m', List.mem_of_mem_drop (by rw [h]; decide), by decide⟩
            · exact ⟨'s', List.mem_of_mem_drop (by rw [h]; decide), by decide⟩
            · exact ⟨'m', List.mem_of_mem_drop (by rw [h]; decide), by decide⟩
            · exact ⟨'h', List.mem_of_mem_drop (by rw [h]; decide), by decide⟩
          obtain ⟨c, hc, hcd⟩ := hnotdigit
          have : ¬ s.data.all Char.isDigit := by
            simp only [List.all_eq_true]
            intro hall
            have := hall c hc
            rw [hcd] at this
            exact Bool.false_ne_true this
          unfold goParseInt64
          simp [this]
      simp only [hzero] at h
      have h' := Option.some_inj.mp h
      subst h'
      split <;> simp

/-! ## Inspect -/

/-- C6 counterexample: the claim says the remaining lease reported by
Inspect is the lease deadline minus now clamped to be at least 0.  The
source computes the plain difference without clamping: acquiring at
instant 1 with lease timeout 5 sets the lease deadline to 6, and
inspecting at instant 10 reports -4, not the clamped value max (6 - 10)
0 = 0. -/
theorem c6_counterexample :
    (((newManager 1).acquirePath "a" 50 5 1).1.inspectPath "a" 10).LockTimeout = -4 ∧
    ¬ (((newManager 1).acquirePath "a" 50 5 1).1.inspectPath "a" 10).LockTimeout =
        max ((6 : Int) - 10) 0 := by
  constructor
  · rfl
  · intro h
    rw [show (((newManager 1).acquirePath "a" 50 5 1).1.inspectPath "a" 10).LockTimeout = -4
          from rfl] at h
    simp at h

/-- C6 amended: for every valid path, Inspect returns holderId 0 with an
empty waiter list when the queue is absent or empty, and otherwise
reports the head's id, a remaining lease equal to leaseDeadline minus
now (not clamped, so possibly negative), and for each waiter in queue
order its id and its remaining acquire timeout equal to acquireDeadline
minus now (likewise not clamped). -/
theorem c6_inspect (m : managerImpl) (raw path : String) (now : Int)
    (hv : ValidateLockPath raw = some path) :
    m.Inspect raw now = some (m.inspectPath path now) ∧
    ((m.locks path).getD [] = [] →
      m.inspectPath path now = { LockingId := 0, LockTimeout := 0, Acquirers := [] }) ∧
    (∀ h rest, m.locks path = some (h :: rest) →
      m.inspectPath path now =
        { LockingId := h.id
          LockTimeout := h.leaseTimeoutAt - now
          Acquirers := rest.map fun t => { Id := t.id, Timeout := t.acquireTimeoutAt - now } }) := by
  refine ⟨by simp [managerImpl.Inspect, hv], fun hempty => ?_, fun h rest hq => ?_⟩
  · unfold managerImpl.inspectPath
    cases hq : m.locks path with
    | none => rfl
    | some ts =>
      cases ts with
      | nil => rfl
      | cons h rest => rw [hq] at hempty; simp at hempty
  · unfold managerImpl.inspectPath
    rw [hq]

/-- Witness for the C6 amended theorem at the manager state that holds
lock a with head ticket 1 (lease deadline 6) and waiter ticket 2
(acquire deadline 102), inspected at instant 10 through the raw path
"//a". -/
theorem c6_inspect_witness :
    (((newManager 1).acquirePath "a" 50 5 1).1.acquirePath "a" 100 5 2).1.Inspect "//a" 10 =
      some ((((newManager 1).acquirePath "a" 50 5 1).1.acquirePath "a" 100 5 2).1.inspectPath
        "a" 10) ∧
    (((((newManager 1).acquirePath "a" 50 5 1).1.acquirePath "a" 100 5 2).1.locks "a").getD [] =
        [] →
      (((newManager 1).acquirePath "a" 50 5 1).1.acquirePath "a" 100 5 2).1.inspectPath "a" 10 =
        { LockingId := 0, LockTimeout := 0, Acquirers := [] }) ∧
    (∀ h rest,
      (((newManager 1).acquirePath "a" 50 5 1).1.acquirePath "a" 100 5 2).1.locks "a" =
          some (h :: rest) →
      (((newManager 1).acquirePath "a" 50 5 1).1.acquirePath "a" 100 5 2).1.inspectPath "a" 10 =
        { LockingId := h.id
          LockTimeout := h.leaseTimeoutAt - 10
          Acquirers := rest.map fun t => { Id := t.id, Timeout := t.acquireTimeoutAt - 10 } }) :=
  c6_inspect (((newManager 1).acquirePath "a" 50 5 1).1.acquirePath "a" 100 5 2).1 "//a" "a" 10
    (by decide)

/-! ## Acquire -/

/-- C2: for every valid path, a positive lease timeout and a nonnegative
lock timeout, Acquire returns a ticket and no error, and exactly one of
three cases holds: on an absent or empty queue the ticket becomes the
head with leaseDeadline now + leaseTimeout and outcome true is delivered
immediately; otherwise with lockTimeout 0 the queue is left unchanged
and outcome false is delivered immediately; otherwise the ticket is
appended at the tail with acquireDeadline now + lockTimeout, no lease
deadline, and no outcome yet. -/
theorem c2_acquire (m : managerImpl) (raw path : String) (lockTimeout leaseTimeout now : Int)
    (hv : ValidateLockPath raw = some path)
    (hlease : 0 < leaseTimeout) (hlock : 0 ≤ lockTimeout) :
    m.Acquire raw lockTimeout leaseTimeout now =
      some (m.acquirePath path lockTimeout leaseTimeout now) ∧
    ((m.locks path).getD [] = [] →
      (m.acquirePath path lockTimeout leaseTimeout now).1.locks path =
        some [(m.acquirePath path lockTimeout leaseTimeout now).2.1] ∧
      (m.acquirePath path lockTimeout leaseTimeout now).2.1.leaseTimeoutAt = now + leaseTimeout ∧
      (m.acquirePath path lockTimeout leaseTimeout now).2.2 =
        [((m.acquirePath path lockTimeout leaseTimeout now).2.1.id, true)]) ∧
    ((m.locks path).getD [] ≠ [] → lockTimeout = 0 →
      (m.acquirePath path lockTimeout leaseTimeout now).1.locks = m.locks ∧
      (m.acquirePath path lockTimeout leaseTimeout now).2.2 =
        [((m.acquirePath path lockTimeout leaseTimeout now).2.1.id, false)]) ∧
    ((m.locks path).getD [] ≠ [] → lockTimeout ≠ 0 →
      (m.acquirePath path lockTimeout leaseTimeout now).1.locks path =
        some ((m.locks path).getD [] ++ [(m.acquirePath path lockTimeout leaseTimeout now).2.1]) ∧
      (m.acquirePath path lockTimeout leaseTimeout now).2.1.acquireTimeoutAt = now + lockTimeout ∧
      (m.acquirePath path lockTimeout leaseTimeout now).2.1.leaseTimeoutAt = 0 ∧
      (m.acquirePath path lockTimeout leaseTimeout now).2.2 = []) := by
  refine ⟨by simp [managerImpl.Acquire, hv], fun hempty => ?_, fun hne hzero => ?_,
    fun hne hnz => ?_⟩
  · have hb : ((m.locks path).getD []).isEmpty = true := by simp [hempty]
    simp [managerImpl.acquirePath, hb, managerImpl.setLock]
  · have hb : ((m.locks path).getD []).isEmpty = false := by
      cases hg : (m.locks path).getD [] with
      | nil => exact absurd hg hne
      | cons a l => rfl
    have hle : lockTimeout ≤ 0 := le_of_eq hzero
    simp [managerImpl.acquirePath, hb, hle]
  · have hb : ((m.locks path).getD []).isEmpty = false := by
      cases hg : (m.locks path).getD [] with
      | nil => exact absurd hg hne
      | cons a l => rfl
    have hle : ¬ lockTimeout ≤ 0 := not_le.mpr (lt_of_le_of_ne hlock (Ne.symm hnz))
    simp [managerImpl.acquirePath, hb, hle, managerImpl.setLock]

/-- Witness for C2 at a fresh manager, raw path "//a" (normalizing to
"a"), lock timeout 3, lease timeout 5, instant 2. -/
theorem c2_acquire_witness :
    (newManager 1).Acquire "//a" 3 5 2 = some ((newManager 1).acquirePath "a" 3 5 2) ∧
    (((newManager 1).locks "a").getD [] = [] →
      ((newManager 1).acquirePath "a" 3 5 2).1.locks "a" =
        some [((newManager 1).acquirePath "a" 3 5 2).2.1] ∧
      ((newManager 1).acquirePath "a" 3 5 2).2.1.leaseTimeoutAt = 2 + 5 ∧
      ((newManager 1).acquirePath "a" 3 5 2).2.2 =
        [(((newManager 1).acquirePath "a" 3 5 2).2.1.id, true)]) ∧
    (((newManager 1).locks "a").getD [] ≠ [] → (3 : Int) = 0 →
      ((newManager 1).acquirePath "a" 3 5 2).1.locks = (newManager 1).locks ∧
      ((newManager 1).acquirePath "a" 3 5 2).2.2 =
        [(((newManager 1).acquirePath "a" 3 5 2).2.1.id, false)]) ∧
    (((newManager 1).locks "a").getD [] ≠ [] → (3 : Int) ≠ 0 →
      ((newManager 1).acquirePath "a" 3 5 2).1.locks "a" =
        some (((newManager 1).locks "a").getD [] ++ [((newManager 1).acquirePath "a" 3 5 2).2.1]) ∧
      ((newManager 1).acquirePath "a" 3 5 2).2.1.acquireTimeoutAt = 2 + 3 ∧
      ((newManager 1).acquirePath "a" 3 5 2).2.1.leaseTimeoutAt = 0 ∧
      ((newManager 1).acquirePath "a" 3 5 2).2.2 = []) :=
  c2_acquire (newManager 1) "//a" "a" 3 5 2 (by decide) (by decide) (by decide)

/-! ## Extend -/

/-- C5: for every valid path, Extend succeeds and unconditionally
replaces the lease deadline with now + d exactly when the queue's head
has the matching id (a second Extend with d' leaves the deadline at its
own now' + d', so Extend may shorten a lease); for any id that is not
the head's id, including waiters of the same queue and ids on an absent
or empty queue, it returns found = false and changes no state. -/
theorem c5_extend (m : managerImpl) (raw path : String) (id d d' now now' : Int)
    (hv : ValidateLockPath raw = some path) :
    m.Extend raw id d now = some (m.extendPath path id d now) ∧
    (∀ h rest, m.locks path = some (h :: rest) → h.id = id →
      m.extendPath path id d now =
        (m.setLock path ({ h with leaseTimeoutAt := now + d } :: rest), true) ∧
      ((m.extendPath path id d now).1.extendPath path id d' now').1.locks path =
        some ({ h with leaseTimeoutAt := now' + d' } :: rest)) ∧
    ((∀ h, ((m.locks path).getD []).head? = some h → h.id ≠ id) →
      m.extendPath path id d now = (m, false)) := by
  refine ⟨by simp [managerImpl.Extend, hv], fun h rest hq hid => ?_, fun hne => ?_⟩
  · have h1 : m.extendPath path id d now =
        (m.setLock path ({ h with leaseTimeoutAt := now + d } :: rest), true) := by
      unfold managerImpl.extendPath
      rw [hq]
      simp [hid]
    refine ⟨h1, ?_⟩
    rw [h1]
    unfold managerImpl.extendPath
    simp [managerImpl.setLock, hid]
  · unfold managerImpl.extendPath
    cases hq : m.locks path with
    | none => rfl
    | some ts =>
      cases ts with
      | nil => rfl
      | cons h rest =>
        have : h.id ≠ id := hne h (by rw [hq]; rfl)
        simp [this]

/-- Witness for C5 at the state where path a is held by ticket 1 with
lease deadline 6: extend with the holder id 1, durations 7 then 9, at
instants 3 then 4, through the raw path "a". -/
theorem c5_extend_witness :
    witnessManager1.Extend "a" 1 7 3 = some (witnessManager1.extendPath "a" 1 7 3) ∧
    (∀ h rest, witnessManager1.locks "a" = some (h :: rest) → h.id = 1 →
      witnessManager1.extendPath "a" 1 7 3 =
        (witnessManager1.setLock "a" ({ h with leaseTimeoutAt := 3 + 7 } :: rest), true) ∧
      ((witnessManager1.extendPath "a" 1 7 3).1.extendPath "a" 1 9 4).1.locks "a" =
        some ({ h with leaseTimeoutAt := 4 + 9 } :: rest)) ∧
    ((∀ h, ((witnessManager1.locks "a").getD []).head? = some h → h.id ≠ 1) →
      witnessManager1.extendPath "a" 1 7 3 = (witnessManager1, false)) :=
  c5_extend witnessManager1 "a" "a" 1 7 9 3 4 (by decide)

/-! ## Release -/

theorem setLock_self (m : managerImpl) (path : String) (q : lockImpl)
    (hq : m.locks path = some q) : m.setLock path q = m := by
  have hfun : (fun p => if p = path then some q else m.locks p) = m.locks := by
    funext p
    by_cases hp : p = path
    · subst hp; simp [hq]
    · simp [hp]
  unfold managerImpl.setLock
  rw [hfun]

/-- C10: releasing an id that does not occur in a non-empty queue returns
found = false but is not a pure read: the full release result is exactly
the result of running the maintenance step for that path, so expired
records are dropped (waiters receiving outcome false) and a promotion
can happen before Release returns. -/
theorem c10_release_unknown_maintains (m : managerImpl) (raw path : String) (id now : Int)
    (q : lockImpl) (hv : ValidateLockPath raw = some path)
    (hq : m.locks path = some q) (hne : q ≠ [])
    (hmiss : ∀ t ∈ q, t.id ≠ id) :
    m.Release raw id now =
      some ((m.maintainPath path now).1, false, (m.maintainPath path now).2) := by
  have hfound : (q.any fun t => t.id = id) = false := by
    rw [List.any_eq_false]
    intro t ht
    simp [hmiss t ht]
  have hqne : q.isEmpty = false := by
    cases q with
    | nil => exact absurd rfl hne
    | cons a l => rfl
  have hnotall : ¬ ∀ a ∈ q, a.id = id := by
    intro hall
    cases q with
    | nil => exact hne rfl
    | cons a l => exact hmiss a (by simp) (hall a (by simp))
  have hfilter2 : List.filter (fun t => !decide (t.id = id)) q = q := by
    rw [List.filter_eq_self]
    intro a ha
    simp [hmiss a ha]
  have hevents2 : List.filterMap
      (fun t => if t.id = id ∧ t.leaseTimeoutAt = 0 then some (t.id, false) else none) q = [] := by
    rw [List.filterMap_eq_nil_iff]
    intro t ht
    simp [hmiss t ht]
  have hrel : m.releasePath path id now =
      ((m.maintainPath path now).1, false, (m.maintainPath path now).2) := by
    unfold managerImpl.releasePath
    rw [hq]
    simp [hqne, hfound, hnotall, hfilter2, hevents2, setLock_self m path q hq]
  unfold managerImpl.Release
  rw [hv, Option.map_some', hrel]

/-- Witness for C10 at the state with holder ticket 1 (lease deadline 6)
and waiter ticket 2 (acquire deadline 102): releasing the absent id 99
at instant 200 returns found = false and the inline maintenance result
for path a. -/
theorem c10_release_unknown_maintains_witness :
    witnessManager2.Release "a" 99 200 =
      some ((witnessManager2.maintainPath "a" 200).1, false,
        (witnessManager2.maintainPath "a" 200).2) :=
  c10_release_unknown_maintains witnessManager2 "a" "a" 99 200
    [⟨1, 5, 0, 6⟩, ⟨2, 5, 102, 0⟩] (by decide) (by decide) (by decide) (by decide)

/-- Releasing the id of the single ticket of a queue removes the queue
entry entirely. -/
theorem releasePath_singleton (m : managerImpl) (path : String) (t : ticketImpl) (now : Int)
    (hq : m.locks path = some [t]) :
    m.releasePath path t.id now =
      (m.eraseLock path, true, if t.leaseTimeoutAt = 0 then [(t.id, false)] else []) := by
  unfold managerImpl.releasePath
  rw [hq]
  simp
  by_cases ht : t.leaseTimeoutAt = 0 <;> simp [ht]

/-- C7: a ticket to which Acquire delivered outcome true immediately,
followed by Release of that ticket's id, leaves IsLocked at 0 at once,
with no maintenance tick in between. -/
theorem c7_acquire_release_roundtrip (m : managerImpl) (raw path : String)
    (lockTimeout leaseTimeout now now' : Int)
    (hv : ValidateLockPath raw = some path)
    (htrue : ((m.acquirePath path lockTimeout leaseTimeout now).2.1.id, true) ∈
      (m.acquirePath path lockTimeout leaseTimeout now).2.2) :
    (m.acquirePath path lockTimeout leaseTimeout now).1.Release raw
        (m.acquirePath path lockTimeout leaseTimeout now).2.1.id now' =
      some (((m.acquirePath path lockTimeout leaseTimeout now).1.releasePath path
        (m.acquirePath path lockTimeout leaseTimeout now).2.1.id now')) ∧
    ((m.acquirePath path lockTimeout leaseTimeout now).1.releasePath path
        (m.acquirePath path lockTimeout leaseTimeout now).2.1.id now').2.1 = true ∧
    ((m.acquirePath path lockTimeout leaseTimeout now).1.releasePath path
        (m.acquirePath path lockTimeout leaseTimeout now).2.1.id now').1.IsLocked raw =
      some 0 := by
  by_cases hb : ((m.locks path).getD []).isEmpty = true
  · have hsingle : (m.acquirePath path lockTimeout leaseTimeout now).1.locks path =
        some [(m.acquirePath path lockTimeout leaseTimeout now).2.1] := by
      simp [managerImpl.acquirePath, hb, managerImpl.setLock]
    have hrel := releasePath_singleton (m.acquirePath path lockTimeout leaseTimeout now).1 path
      (m.acquirePath path lockTimeout leaseTimeout now).2.1 now' hsingle
    refine ⟨by simp [managerImpl.Release, hv], by rw [hrel], ?_⟩
    rw [hrel]
    simp [managerImpl.IsLocked, hv, managerImpl.isLockedPath, managerImpl.eraseLock]
  · exfalso
    rw [Bool.not_eq_true] at hb
    by_cases hlt : lockTimeout ≤ 0
    · simp [managerImpl.acquirePath, hb, hlt] at htrue
    · simp [managerImpl.acquirePath, hb, hlt] at htrue

/-- Witness for C7: a fresh Acquire("a", 3, 5) at instant 2 delivers
outcome true to ticket 1; releasing id 1 at instant 9 yields found =
true and IsLocked 0. -/
theorem c7_acquire_release_roundtrip_witness :
    ((newManager 1).acquirePath "a" 3 5 2).1.Release "a"
        ((newManager 1).acquirePath "a" 3 5 2).2.1.id 9 =
      some ((((newManager 1).acquirePath "a" 3 5 2).1.releasePath "a"
        ((newManager 1).acquirePath "a" 3 5 2).2.1.id 9)) ∧
    (((newManager 1).acquirePath "a" 3 5 2).1.releasePath "a"
        ((newManager 1).acquirePath "a" 3 5 2).2.1.id 9).2.1 = true ∧
    (((newManager 1).acquirePath "a" 3 5 2).1.releasePath "a"
        ((newManager 1).acquirePath "a" 3 5 2).2.1.id 9).1.IsLocked "a" = some 0 :=
  c7_acquire_release_roundtrip (newManager 1) "a" "a" 3 5 2 9 (by decide) (by decide)

/-! ## The maintenance step -/

/-- The dropped records that receive outcome false are exactly the
records with no lease deadline set and an expired (or unset) acquisition
deadline, in queue order. -/
theorem droppedWaiterEvents_eq (now : Int) (q : lockImpl) :
    droppedWaiterEvents now q =
      (q.filter fun t => !decide (0 < t.leaseTimeoutAt) && !decide (now < t.acquireTimeoutAt)).map
        fun t => (t.id, false) := by
  induction q with
  | nil => rfl
  | cons t rest ih =>
    unfold droppedWaiterEvents at ih ⊢
    by_cases h1 : 0 < t.leaseTimeoutAt
    · simp [h1, ih]
    · by_cases h2 : now < t.acquireTimeoutAt
      · simp [h1, h2, ih]
      · simp [h1, h2, ih]

/-- C1 counterexample: the claim's partition keeps every record whose
leaseDeadline is greater than now or whose acquireDeadline is greater
than now.  A promoted waiter keeps its acquireTimeoutAt, so after ticket
1 expires at instant 7 the promoted ticket 2 has leaseTimeoutAt 12 and
acquireTimeoutAt 102; maintaining at instant 20 drops it (the source
only checks the lease deadline once one is set) and deletes the queue,
while the claim's partition would have kept it (102 > 20). -/
theorem c1_counterexample :
    (witnessManager2.maintainPath "a" 7).1.locks "a" = some [⟨2, 5, 102, 12⟩] ∧
    ((witnessManager2.maintainPath "a" 7).1.maintainPath "a" 20).1.locks "a" = none ∧
    [(⟨2, 5, 102, 12⟩ : ticketImpl)].filter
        (fun t => decide (20 < t.leaseTimeoutAt) || decide (20 < t.acquireTimeoutAt)) =
      [⟨2, 5, 102, 12⟩] ∧
    ¬ ((witnessManager2.maintainPath "a" 7).1.maintainPath "a" 20).1.locks "a" =
        some ([(⟨2, 5, 102, 12⟩ : ticketImpl)].filter
          fun t => decide (20 < t.leaseTimeoutAt) || decide (20 < t.acquireTimeoutAt)) := by
  decide

/-- C1 amended: for a non-empty queue the maintenance step keeps, in FIFO
order, exactly the records that either have a lease deadline set and
greater than now, or have no lease deadline set and an acquireDeadline
greater than now; every dropped record without a lease deadline receives
outcome false and dropped holders receive none; if nothing survives the
queue entry is removed from the mapping; and if the surviving head has
no lease deadline it is promoted with leaseDeadline now plus its
firstLeaseTimeout and outcome true, so a waiter whose acquire deadline
has passed is dropped, never promoted.  Other paths are untouched. -/
theorem c1_maintain (m : managerImpl) (path : String) (now : Int) (q : lockImpl)
    (hq : m.locks path = some q) (hne : q ≠ []) :
    List.Sublist (q.filter (keepTicket now)) q ∧
    (∀ t ∈ q, keepTicket now t =
      (if 0 < t.leaseTimeoutAt then decide (now < t.leaseTimeoutAt)
       else decide (now < t.acquireTimeoutAt))) ∧
    (q.filter (keepTicket now) = [] →
      (m.maintainPath path now).1.locks path = none ∧
      (m.maintainPath path now).2 = droppedWaiterEvents now q) ∧
    (∀ h rest, q.filter (keepTicket now) = h :: rest → h.leaseTimeoutAt ≠ 0 →
      (m.maintainPath path now).1.locks path = some (h :: rest) ∧
      (m.maintainPath path now).2 = droppedWaiterEvents now q) ∧
    (∀ h rest, q.filter (keepTicket now) = h :: rest → h.leaseTimeoutAt = 0 →
      (m.maintainPath path now).1.locks path =
        some ({ h with leaseTimeoutAt := now + h.firstLeaseTimeout } :: rest) ∧
      (m.maintainPath path now).2 = droppedWaiterEvents now q ++ [(h.id, true)]) ∧
    droppedWaiterEvents now q =
      (q.filter fun t => !decide (0 < t.leaseTimeoutAt) && !decide (now < t.acquireTimeoutAt)).map
        (fun t => (t.id, false)) ∧
    (∀ p, p ≠ path → (m.maintainPath path now).1.locks p = m.locks p) := by
  have hqe : q.isEmpty = false := by
    cases q with
    | nil => exact absurd rfl hne
    | cons a l => rfl
  refine ⟨List.filter_sublist q, fun t _ => rfl, fun hkept => ?_, fun h rest hkept hno => ?_,
    fun h rest hkept hyes => ?_, droppedWaiterEvents_eq now q, fun p hp => ?_⟩
  · unfold managerImpl.maintainPath
    rw [hq]
    simp only [hqe, Bool.false_eq_true, if_false]
    rw [hkept]
    simp [promoteHead, managerImpl.eraseLock]
  · unfold managerImpl.maintainPath
    rw [hq]
    simp only [hqe, Bool.false_eq_true, if_false]
    rw [hkept]
    simp [promoteHead, hno, managerImpl.setLock]
  · unfold managerImpl.maintainPath
    rw [hq]
    simp only [hqe, Bool.false_eq_true, if_false]
    rw [hkept]
    simp [promoteHead, hyes, managerImpl.setLock]
  · unfold managerImpl.maintainPath
    rw [hq]
    simp only [hqe, Bool.false_eq_true, if_false]
    split
    · simp [managerImpl.eraseLock, hp]
    · simp [managerImpl.setLock, hp]

/-- Witness for the C1 amended theorem at the state with holder ticket 1
(lease deadline 6) and waiter ticket 2 (acquire deadline 102),
maintained at instant 7: the holder is dropped and the waiter is
promoted. -/
theorem c1_maintain_witness :
    List.Sublist
      ([(⟨1, 5, 0, 6⟩ : ticketImpl), ⟨2, 5, 102, 0⟩].filter (keepTicket 7))
      [(⟨1, 5, 0, 6⟩ : ticketImpl), ⟨2, 5, 102, 0⟩] ∧
    (∀ t ∈ [(⟨1, 5, 0, 6⟩ : ticketImpl), ⟨2, 5, 102, 0⟩], keepTicket 7 t =
      (if 0 < t.leaseTimeoutAt then decide (7 < t.leaseTimeoutAt)
       else decide (7 < t.acquireTimeoutAt))) ∧
    ([(⟨1, 5, 0, 6⟩ : ticketImpl), ⟨2, 5, 102, 0⟩].filter (keepTicket 7) = [] →
      (witnessManager2.maintainPath "a" 7).1.locks "a" = none ∧
      (witnessManager2.maintainPath "a" 7).2 =
        droppedWaiterEvents 7 [(⟨1, 5, 0, 6⟩ : ticketImpl), ⟨2, 5, 102, 0⟩]) ∧
    (∀ h rest, [(⟨1, 5, 0, 6⟩ : ticketImpl), ⟨2, 5, 102, 0⟩].filter (keepTicket 7) = h :: rest →
      h.leaseTimeoutAt ≠ 0 →
      (witnessManager2.maintainPath "a" 7).1.locks "a" = some (h :: rest) ∧
      (witnessManager2.maintainPath "a" 7).2 =
        droppedWaiterEvents 7 [(⟨1, 5, 0, 6⟩ : ticketImpl), ⟨2, 5, 102, 0⟩]) ∧
    (∀ h rest, [(⟨1, 5, 0, 6⟩ : ticketImpl), ⟨2, 5, 102, 0⟩].filter (keepTicket 7) = h :: rest →
      h.leaseTimeoutAt = 0 →
      (witnessManager2.maintainPath "a" 7).1.locks "a" =
        some ({ h with leaseTimeoutAt := 7 + h.firstLeaseTimeout } :: rest) ∧
      (witnessManager2.maintainPath "a" 7).2 =
        droppedWaiterEvents 7 [(⟨1, 5, 0, 6⟩ : ticketImpl), ⟨2, 5, 102, 0⟩] ++ [(h.id, true)]) ∧
    droppedWaiterEvents 7 [(⟨1, 5, 0, 6⟩ : ticketImpl), ⟨2, 5, 102, 0⟩] =
      ([(⟨1, 5, 0, 6⟩ : ticketImpl), ⟨2, 5, 102, 0⟩].filter fun t =>
          !decide (0 < t.leaseTimeoutAt) && !decide (7 < t.acquireTimeoutAt)).map
        (fun t => (t.id, false)) ∧
    (∀ p, p ≠ "a" → (witnessManager2.maintainPath "a" 7).1.locks p = witnessManager2.locks p) :=
  c1_maintain witnessManager2 "a" 7 [⟨1, 5, 0, 6⟩, ⟨2, 5, 102, 0⟩] (by decide) (by decide)

/-- Maintenance never invents ticket ids: every id in the maintained
queue already occurs in the queue it started from. -/
theorem maintainPath_ids (m : managerImpl) (path : String) (now : Int) (q q' : lockImpl)
    (hq : m.locks path = some q)
    (hq' : (m.maintainPath path now).1.locks path = some q') :
    ∀ t ∈ q', t.id ∈ q.map ticketImpl.id := by
  intro t ht
  unfold managerImpl.maintainPath at hq'
  rw [hq] at hq'
  by_cases hqe : q.isEmpty = true
  · simp only [hqe, if_true] at hq'
    rw [hq] at hq'
    obtain rfl : q = q' := Option.some_inj.mp hq'
    rw [List.isEmpty_iff.mp hqe] at ht
    exact absurd ht (List.not_mem_nil t)
  · simp only [hqe, Bool.false_eq_true, if_false] at hq'
    cases hk : q.filter (keepTicket now) with
    | nil =>
      rw [hk] at hq'
      simp [promoteHead, managerImpl.eraseLock] at hq'
    | cons h rest =>
      rw [hk] at hq'
      have hhq : h ∈ q := List.mem_of_mem_filter (hk ▸ List.mem_cons_self h rest)
      have hrq : ∀ u ∈ rest, u ∈ q := fun u hu =>
        List.mem_of_mem_filter (hk ▸ List.mem_cons_of_mem h hu)
      by_cases hlz : h.leaseTimeoutAt = 0
      · simp only [promoteHead, hlz, if_true] at hq'
        simp [managerImpl.setLock] at hq'
        rw [← hq'] at ht
        rcases List.mem_cons.mp ht with rfl | htr
        · exact List.mem_map.mpr ⟨h, hhq, rfl⟩
        · exact List.mem_map.mpr ⟨t, hrq t htr, rfl⟩
      · simp only [promoteHead, hlz, if_false] at hq'
        simp [managerImpl.setLock] at hq'
        rw [← hq'] at ht
        rcases List.mem_cons.mp ht with rfl | htr
        · exact List.mem_map.mpr ⟨t, hhq, rfl⟩
        · exact List.mem_map.mpr ⟨t, hrq t htr, rfl⟩

/-- Maintenance only delivers outcomes to ids of the queue it started
from. -/
theorem maintainPath_event_ids (m : managerImpl) (path : String) (now : Int) (q : lockImpl)
    (hq : m.locks path = some q) :
    ∀ e ∈ (m.maintainPath path now).2, e.1 ∈ q.map ticketImpl.id := by
  intro e he
  unfold managerImpl.maintainPath at he
  rw [hq] at he
  by_cases hqe : q.isEmpty = true
  · simp only [hqe, if_true] at he
    exact absurd he (List.not_mem_nil e)
  · simp only [hqe, Bool.false_eq_true, if_false] at he
    have hdropped : ∀ e' ∈ droppedWaiterEvents now q, e'.1 ∈ q.map ticketImpl.id := by
      intro e' he'
      obtain ⟨u, hu, hue⟩ := List.mem_filterMap.mp he'
      refine List.mem_map.mpr ⟨u, hu, ?_⟩
      by_cases h1 : 0 < u.leaseTimeoutAt
      · simp [h1] at hue
      · by_cases h2 : now < u.acquireTimeoutAt
        · simp [h1, h2] at hue
        · simp only [h1, h2, if_false, if_neg] at hue
          rw [← Option.some_inj.mp hue]
    cases hk : q.filter (keepTicket now) with
    | nil =>
      rw [hk] at he
      simp only [promoteHead] at he
      revert he
      split <;> intro he
      · exact hdropped e (by simpa using he)
      · exact hdropped e (by simpa using he)
    | cons h rest =>
      rw [hk] at he
      have hhq : h ∈ q := List.mem_of_mem_filter (hk ▸ List.mem_cons_self h rest)
      by_cases hlz : h.leaseTimeoutAt = 0
      · simp only [promoteHead, hlz, if_true] at he
        revert he
        split <;> intro he <;> rcases List.mem_append.mp he with hd | hp
        · exact hdropped e hd
        · rcases List.mem_singleton.mp hp with rfl
          exact List.mem_map.mpr ⟨h, hhq, rfl⟩
        · exact hdropped e hd
        · rcases List.mem_singleton.mp hp with rfl
          exact List.mem_map.mpr ⟨h, hhq, rfl⟩
      · simp only [promoteHead, hlz, if_false] at he
        revert he
        split <;> intro he <;> simp only [List.append_nil] at he
        · exact hdropped e he
        · exact hdropped e he

/-- C3: Release returns found = false when no record with the id is in
the path's queue; when one is present it is removed and found = true;
a removed waiter (no lease deadline) receives outcome false; a removed
head holder receives no outcome and the maintenance step for the path
runs before Release returns (when the queue empties, the entry is simply
deleted, which is what maintenance of an absent path leaves). -/
theorem c3_release (m : managerImpl) (raw path : String) (id now : Int)
    (hv : ValidateLockPath raw = some path) :
    m.Release raw id now = some (m.releasePath path id now) ∧
    ((∀ q, m.locks path = some q → ∀ t ∈ q, t.id ≠ id) →
      (m.releasePath path id now).2.1 = false) ∧
    (∀ q, m.locks path = some q → (∃ t ∈ q, t.id = id) →
      (m.releasePath path id now).2.1 = true ∧
      (∀ q', (m.releasePath path id now).1.locks path = some q' → ∀ t ∈ q', t.id ≠ id)) ∧
    (∀ q t, m.locks path = some q → t ∈ q → t.id = id → t.leaseTimeoutAt = 0 →
      (id, false) ∈ (m.releasePath path id now).2.2) ∧
    (∀ h rest, m.locks path = some (h :: rest) → h.id = id → h.leaseTimeoutAt ≠ 0 →
      (∀ t ∈ rest, t.id ≠ id) →
      (∀ b, (id, b) ∉ (m.releasePath path id now).2.2) ∧
      m.releasePath path id now =
        ((if rest = [] then m.eraseLock path else
            ((m.setLock path rest).maintainPath path now).1), true,
          if rest = [] then [] else ((m.setLock path rest).maintainPath path now).2)) := by
  refine ⟨by simp [managerImpl.Release, hv], fun hmiss => ?_, fun q hq ⟨t, ht, htid⟩ => ?_,
    fun q t hq ht htid htl => ?_, fun h rest hq hid hlease hrest => ?_⟩
  · unfold managerImpl.releasePath
    cases hq : m.locks path with
    | none => rfl
    | some ts =>
      have hfound : (ts.any fun t => t.id = id) = false := by
        rw [List.any_eq_false]
        intro t ht
        simp [hmiss ts hq t ht]
      by_cases hse : ts.isEmpty = true
      · simp [hse]
      · simp only [hse, Bool.false_eq_true, if_false]
        split <;> simp [hfound]
  · have hse : q.isEmpty = false := by
      cases q with
      | nil => exact absurd ht (List.not_mem_nil t)
      | cons a l => rfl
    have hfound : (q.any fun u => u.id = id) = true := by
      rw [List.any_eq_true]
      exact ⟨t, ht, by simp [htid]⟩
    constructor
    · unfold managerImpl.releasePath
      rw [hq]
      simp only [hse, Bool.false_eq_true, if_false]
      split <;> simp [hfound]
    · intro q' hq' t' ht'
      unfold managerImpl.releasePath at hq'
      rw [hq] at hq'
      simp only [hse, Bool.false_eq_true, if_false] at hq'
      revert hq'
      split
      · intro hq'
        simp [managerImpl.eraseLock] at hq'
      · intro hq'
        have hids := maintainPath_ids (m.setLock path (q.filter fun u => u.id ≠ id)) path now
          (q.filter fun u => u.id ≠ id) q' (by simp [managerImpl.setLock]) hq' t' ht'
        obtain ⟨u, hu, huid⟩ := List.mem_map.mp hids
        have := List.of_mem_filter hu
        rw [← huid]
        simpa using this
  · have hse : q.isEmpty = false := by
      cases q with
      | nil => exact absurd ht (List.not_mem_nil t)
      | cons a l => rfl
    have hmem : (id, false) ∈ q.filterMap fun u =>
        if u.id = id && u.leaseTimeoutAt = 0 then some (u.id, false) else none := by
      refine List.mem_filterMap.mpr ⟨t, ht, ?_⟩
      simp [htid, htl]
    unfold managerImpl.releasePath
    rw [hq]
    simp only [hse, Bool.false_eq_true, if_false]
    split
    · simpa using hmem
    · simpa using List.mem_append_left _ hmem
  · have hse : (h :: rest).isEmpty = false := rfl
    have hfound : ((h :: rest).any fun u => u.id = id) = true := by
      rw [List.any_eq_true]
      exact ⟨h, List.mem_cons_self h rest, by simp [hid]⟩
    have hevents : ((h :: rest).filterMap fun u =>
        if u.id = id && u.leaseTimeoutAt = 0 then some (u.id, false) else none) = [] := by
      rw [List.filterMap_eq_nil_iff]
      intro u hu
      rcases List.mem_cons.mp hu with rfl | hur
      · simp [hlease]
      · simp [hrest u hur]
    have hfilter : ((h :: rest).filter fun u => u.id ≠ id) = rest := by
      rw [List.filter_cons_of_neg (by simp [hid])]
      rw [List.filter_eq_self]
      intro u hu
      simp [hrest u hu]
    have hmain : m.releasePath path id now =
        ((if rest = [] then m.eraseLock path else
            ((m.setLock path rest).maintainPath path now).1), true,
          if rest = [] then [] else ((m.setLock path rest).maintainPath path now).2) := by
      unfold managerImpl.releasePath
      rw [hq]
      simp only [hse, Bool.false_eq_true, if_false, hfilter, hfound, hevents]
      cases hrestE : rest with
      | nil => simp
      | cons r rs => simp
    refine ⟨fun b hb => ?_, hmain⟩
    rw [hmain] at hb
    simp only at hb
    revert hb
    split
    · intro hb
      exact absurd hb (List.not_mem_nil _)
    · intro hb
      have := maintainPath_event_ids (m.setLock path rest) path now rest
        (by simp [managerImpl.setLock]) (id, b) hb
      obtain ⟨u, hu, huid⟩ := List.mem_map.mp this
      exact hrest u hu huid

/-- Witness for C3 at the state with holder ticket 1 and waiter ticket 2,
releasing the waiter id 2 at instant 3 through the raw path "a". -/
theorem c3_release_witness :
    witnessManager2.Release "a" 2 3 = some (witnessManager2.releasePath "a" 2 3) ∧
    ((∀ q, witnessManager2.locks "a" = some q → ∀ t ∈ q, t.id ≠ 2) →
      (witnessManager2.releasePath "a" 2 3).2.1 = false) ∧
    (∀ q, witnessManager2.locks "a" = some q → (∃ t ∈ q, t.id = 2) →
      (witnessManager2.releasePath "a" 2 3).2.1 = true ∧
      (∀ q', (witnessManager2.releasePath "a" 2 3).1.locks "a" = some q' →
        ∀ t ∈ q', t.id ≠ 2)) ∧
    (∀ q t, witnessManager2.locks "a" = some q → t ∈ q → t.id = 2 → t.leaseTimeoutAt = 0 →
      ((2 : Int), false) ∈ (witnessManager2.releasePath "a" 2 3).2.2) ∧
    (∀ h rest, witnessManager2.locks "a" = some (h :: rest) → h.id = 2 →
      h.leaseTimeoutAt ≠ 0 → (∀ t ∈ rest, t.id ≠ 2) →
      (∀ b, ((2 : Int), b) ∉ (witnessManager2.releasePath "a" 2 3).2.2) ∧
      witnessManager2.releasePath "a" 2 3 =
        ((if rest = [] then witnessManager2.eraseLock "a" else
            ((witnessManager2.setLock "a" rest).maintainPath "a" 3).1), true,
          if rest = [] then [] else ((witnessManager2.setLock "a" rest).maintainPath "a" 3).2)) :=
  c3_release witnessManager2 "a" "a" 2 3 (by decide)

/-! ## The queue invariant -/

theorem maintainPath_frame (m : managerImpl) (path : String) (now : Int) (p : String)
    (hp : p ≠ path) : (m.maintainPath path now).1.locks p = m.locks p := by
  unfold managerImpl.maintainPath
  cases hq : m.locks path with
  | none => rfl
  | some ts =>
    by_cases hse : ts.isEmpty = true
    · simp [hse]
    · simp only [hse, Bool.false_eq_true, if_false]
      split
      · simp [managerImpl.eraseLock, hp]
      · simp [managerImpl.setLock, hp]

/-- The maintenance step restores full queue well-formedness from the
weaker hypothesis that the entry queue has well-bounded fields and
waiter-shaped non-head records (its head need not hold a lease, which is
exactly the situation after Release removes the holder). -/
theorem maintainPath_WF (m : managerImpl) (path : String) (now : Int)
    (hnow : 0 < now)
    (hpath : ∀ q, m.locks path = some q → recsWF q ∧ tailWF q)
    (hother : ∀ p q, p ≠ path → m.locks p = some q → queueWF q) :
    Inv (m.maintainPath path now).1 := by
  intro p q' hq'
  by_cases hp : p = path
  · subst hp
    cases hq : m.locks p with
    | none =>
      unfold managerImpl.maintainPath at hq'
      rw [hq] at hq'
      simp only at hq'
      rw [hq] at hq'
      exact absurd hq' (by simp)
    | some ts =>
      obtain ⟨hrecs, htail⟩ := hpath ts hq
      unfold managerImpl.maintainPath at hq'
      rw [hq] at hq'
      by_cases hse : ts.isEmpty = true
      · simp only [hse, if_true] at hq'
        rw [hq] at hq'
        obtain rfl : ts = q' := Option.some_inj.mp hq'
        rw [List.isEmpty_iff.mp hse]
        exact ⟨by simp [recsWF], by simp [headWF], by simp [tailWF]⟩
      · simp only [hse, Bool.false_eq_true, if_false] at hq'
        cases ts with
        | nil => exact absurd rfl hse
        | cons t0 ts' =>
          have htail' : ∀ u ∈ ts', u.leaseTimeoutAt = 0 ∧ 0 < u.acquireTimeoutAt := by
            intro u hu
            exact htail u (by simpa using hu)
          cases hk : (t0 :: ts').filter (keepTicket now) with
          | nil =>
            rw [hk] at hq'
            simp [promoteHead, managerImpl.eraseLock] at hq'
          | cons h rest =>
            rw [hk] at hq'
            have hhmem : h ∈ t0 :: ts' :=
              List.mem_of_mem_filter (hk ▸ List.mem_cons_self h rest)
            have hrmem : ∀ u ∈ rest, u ∈ t0 :: ts' := fun u hu =>
              List.mem_of_mem_filter (hk ▸ List.mem_cons_of_mem h hu)
            have hrest_waiter : ∀ u ∈ rest, u.leaseTimeoutAt = 0 ∧ 0 < u.acquireTimeoutAt := by
              intro u hu
              by_cases hkeep0 : keepTicket now t0 = true
              · rw [List.filter_cons_of_pos hkeep0] at hk
                obtain ⟨rfl, hrk⟩ := List.cons.inj hk
                exact htail' u (List.mem_of_mem_filter (hrk ▸ hu))
              · rw [List.filter_cons_of_neg (by simpa using hkeep0)] at hk
                exact htail' u (List.mem_of_mem_filter (hk ▸ List.mem_cons_of_mem h hu))
            have hfirst : 0 < h.firstLeaseTimeout := (hrecs h hhmem).1
            by_cases hlz : h.leaseTimeoutAt = 0
            · simp only [promoteHead, hlz, if_true] at hq'
              simp [managerImpl.setLock] at hq'
              obtain rfl : { h with leaseTimeoutAt := now + h.firstLeaseTimeout } :: rest = q' :=
                hq'
              refine ⟨?_, ?_, ?_⟩
              · intro u hu
                rcases List.mem_cons.mp hu with rfl | hur
                · exact ⟨hfirst, by positivity, (hrecs h hhmem).2.2⟩
                · exact hrecs u (hrmem u hur)
              · intro u hu
                rw [show ({ h with leaseTimeoutAt := now + h.firstLeaseTimeout } :: rest).take 1 =
                  [{ h with leaseTimeoutAt := now + h.firstLeaseTimeout }] from rfl] at hu
                rcases List.mem_singleton.mp hu with rfl
                show (0 : Int) < now + h.firstLeaseTimeout
                positivity
              · intro u hu
                exact hrest_waiter u (by simpa using hu)
            · simp only [promoteHead, hlz, if_false] at hq'
              simp [managerImpl.setLock] at hq'
              obtain rfl : h :: rest = q' := hq'
              have hlpos : 0 < h.leaseTimeoutAt :=
                lt_of_le_of_ne (hrecs h hhmem).2.1 (Ne.symm hlz)
              refine ⟨?_, ?_, ?_⟩
              · intro u hu
                rcases List.mem_cons.mp hu with rfl | hur
                · exact hrecs u hhmem
                · exact hrecs u (hrmem u hur)
              · intro u hu
                rw [show (h :: rest).take 1 = [h] from rfl] at hu
                rcases List.mem_singleton.mp hu with rfl
                exact hlpos
              · intro u hu
                exact hrest_waiter u (by simpa using hu)
  · rw [maintainPath_frame m path now p hp] at hq'
    exact hother p q' hp hq'

theorem setLock_locks_self (m : managerImpl) (path : String) (l : lockImpl) :
    (m.setLock path l).locks path = some l := by
  simp [managerImpl.setLock]

theorem setLock_locks_other (m : managerImpl) (path : String) (l : lockImpl) (p : String)
    (hp : p ≠ path) : (m.setLock path l).locks p = m.locks p := by
  simp [managerImpl.setLock, hp]

theorem acquirePath_inv (m : managerImpl) (path : String) (lockTimeout leaseTimeout now : Int)
    (hnow : 0 < now) (hlease : 0 < leaseTimeout) (hInv : Inv m) :
    Inv (m.acquirePath path lockTimeout leaseTimeout now).1 := by
  intro p q' hq'
  by_cases hb : ((m.locks path).getD []).isEmpty = true
  · simp only [managerImpl.acquirePath, hb, if_true, managerImpl.setLock] at hq'
    by_cases hp : p = path
    · subst hp
      simp only [if_pos rfl] at hq'
      obtain rfl := Option.some_inj.mp hq'
      refine ⟨?_, ?_, ?_⟩
      · intro u hu
        rcases List.mem_singleton.mp hu with rfl
        exact ⟨hlease, by positivity, le_refl 0⟩
      · intro u hu
        rcases List.mem_singleton.mp (by simpa using hu) with rfl
        show (0 : Int) < now + leaseTimeout
        positivity
      · intro u hu
        exact absurd hu (by simp)
    · simp only [if_neg hp] at hq'
      exact hInv p q' hq'
  · by_cases hlt : lockTimeout ≤ 0
    · simp only [managerImpl.acquirePath, hb, Bool.false_eq_true, if_false, hlt,
        if_true] at hq'
      exact hInv p q' hq'
    · simp only [managerImpl.acquirePath, hb, Bool.false_eq_true, hlt, if_false,
        managerImpl.setLock] at hq'
      obtain ⟨q, hq, hqne⟩ : ∃ q, m.locks path = some q ∧ q ≠ [] := by
        cases hl : m.locks path with
        | none => rw [hl] at hb; simp at hb
        | some q =>
          refine ⟨q, rfl, ?_⟩
          intro h
          rw [hl, h] at hb
          simp at hb
      by_cases hp : p = path
      · subst hp
        simp only [if_pos rfl] at hq'
        rw [hq] at hq'
        simp only [Option.getD_some] at hq'
        obtain rfl := Option.some_inj.mp hq'
        obtain ⟨hrecs, hhead, htail⟩ := hInv p q hq
        cases q with
        | nil => exact absurd rfl hqne
        | cons q0 q'' =>
          refine ⟨?_, ?_, ?_⟩
          · intro u hu
            rcases List.mem_append.mp hu with hul | hur
            · exact hrecs u hul
            · rcases List.mem_singleton.mp hur with rfl
              refine ⟨hlease, le_refl 0, ?_⟩
              have : 0 < lockTimeout := lt_of_not_le hlt
              positivity
          · intro u hu
            rw [List.cons_append] at hu
            rcases List.mem_singleton.mp hu with rfl
            exact hhead u (List.mem_singleton.mpr rfl)
          · intro u hu
            rw [List.cons_append] at hu
            rcases List.mem_append.mp hu with hul | hur
            · exact htail u hul
            · rcases List.mem_singleton.mp hur with rfl
              refine ⟨rfl, ?_⟩
              have : 0 < lockTimeout := lt_of_not_le hlt
              positivity
      · simp only [if_neg hp] at hq'
        exact hInv p q' hq'

theorem extendPath_inv (m : managerImpl) (path : String) (id timeout now : Int)
    (hnow : 0 < now) (htimeout : 0 ≤ timeout) (hInv : Inv m) :
    Inv (m.extendPath path id timeout now).1 := by
  intro p q' hq'
  unfold managerImpl.extendPath at hq'
  cases hq : m.locks path with
  | none =>
    rw [hq] at hq'
    exact hInv p q' hq'
  | some ts =>
    rw [hq] at hq'
    cases ts with
    | nil => exact hInv p q' hq'
    | cons h rest =>
      have hq2 : (if h.id = id then
            (m.setLock path ({ h with leaseTimeoutAt := now + timeout } :: rest), true)
          else (m, false)).1.locks p = some q' := hq'
      by_cases hid : h.id = id
      · rw [if_pos hid] at hq2
        have hq3 : (m.setLock path ({ h with leaseTimeoutAt := now + timeout } :: rest)).locks p =
            some q' := hq2
        by_cases hp : p = path
        · rw [hp, setLock_locks_self] at hq3
          obtain rfl := Option.some_inj.mp hq3
          obtain ⟨hrecs, hhead, htail⟩ := hInv path (h :: rest) hq
          refine ⟨?_, ?_, ?_⟩
          · intro u hu
            rcases List.mem_cons.mp hu with rfl | hur
            · exact ⟨(hrecs h (List.mem_cons_self h rest)).1, by positivity,
                (hrecs h (List.mem_cons_self h rest)).2.2⟩
            · exact hrecs u (List.mem_cons_of_mem h hur)
          · intro u hu
            rcases List.mem_singleton.mp hu with rfl
            show (0 : Int) < now + timeout
            positivity
          · intro u hu
            exact htail u hu
        · rw [setLock_locks_other _ _ _ _ hp] at hq3
          exact hInv p q' hq3
      · rw [if_neg hid] at hq2
        exact hInv p q' hq2

theorem releasePath_inv (m : managerImpl) (path : String) (id now : Int)
    (hnow : 0 < now) (hInv : Inv m) :
    Inv (m.releasePath path id now).1 := by
  cases hq : m.locks path with
  | none =>
    have h1 : (m.releasePath path id now).1 = m := by
      unfold managerImpl.releasePath
      rw [hq]
    rw [h1]
    exact hInv
  | some ts =>
    by_cases hse : ts.isEmpty = true
    · have h1 : (m.releasePath path id now).1 = m := by
        unfold managerImpl.releasePath
        rw [hq]
        simp [hse]
      rw [h1]
      exact hInv
    · by_cases hne : (ts.filter fun t => t.id ≠ id).isEmpty = true
      · have h1 : (m.releasePath path id now).1 = m.eraseLock path := by
          unfold managerImpl.releasePath
          rw [hq]
          simp only [hse, Bool.false_eq_true, if_false, hne, if_true]
        rw [h1]
        intro p q' hq'
        by_cases hp : p = path
        · subst hp
          simp [managerImpl.eraseLock] at hq'
        · simp only [managerImpl.eraseLock, if_neg hp] at hq'
          exact hInv p q' hq'
      · have h1 : (m.releasePath path id now).1 =
            ((m.setLock path (ts.filter fun t => t.id ≠ id)).maintainPath path now).1 := by
          unfold managerImpl.releasePath
          rw [hq]
          simp only [hse, Bool.false_eq_true, if_false, hne]
        rw [h1]
        refine maintainPath_WF _ path now hnow ?_ ?_
        · intro q hq2
          simp only [managerImpl.setLock, if_pos rfl] at hq2
          obtain rfl := Option.some_inj.mp hq2
          obtain ⟨hrecs, hhead, htail⟩ := hInv path ts hq
          constructor
          · intro u hu
            exact hrecs u (List.mem_of_mem_filter hu)
          · cases ts with
            | nil => exact absurd rfl hse
            | cons t0 ts' =>
              intro u hu
              rw [List.filter_cons] at hu
              by_cases hkeep0 : t0.id ≠ id
              · rw [if_pos (decide_eq_true hkeep0)] at hu
                exact htail u (List.mem_of_mem_filter hu)
              · rw [if_neg (by simpa using hkeep0)] at hu
                exact htail u (List.mem_of_mem_filter (List.mem_of_mem_drop hu))
        · intro p q hp hq2
          simp only [managerImpl.setLock, if_neg hp] at hq2
          exact hInv p q hq2


theorem newManager_inv (seed : Int) : Inv (newManager seed) := by
  intro p q hq
  exact absurd hq (by simp [newManager])

theorem reachable_inv (m : managerImpl) (hm : Reachable m) : Inv m := by
  induction hm with
  | init seed => exact newManager_inv seed
  | step hr hs ih =>
    cases hs with
    | acquire path lockTimeout leaseTimeout now hnow hlease hlock =>
      exact acquirePath_inv _ path lockTimeout leaseTimeout now hnow hlease ih
    | release path id now hnow =>
      exact releasePath_inv _ path id now hnow ih
    | extend path id timeout now hnow htimeout =>
      exact extendPath_inv _ path id timeout now hnow htimeout ih
    | maintain path now hnow =>
      refine maintainPath_WF _ path now hnow ?_ ?_
      · intro q hq
        obtain ⟨hrecs, hhead, htail⟩ := ih path q hq
        exact ⟨hrecs, htail⟩
      · intro p q hp hq
        exact ih p q hq

/-- C4: in every reachable manager state, every stored queue has at most
one record with a lease deadline set, that record (if any) is the head,
and every non-head record has an acquisition deadline set and no lease
deadline. -/
theorem c4_queue_invariant (m : managerImpl) (path : String) (q : lockImpl)
    (hm : Reachable m) (hq : m.locks path = some q) :
    (∀ t ∈ q.drop 1, t.leaseTimeoutAt = 0 ∧ 0 < t.acquireTimeoutAt) ∧
    (∀ t ∈ q, 0 < t.leaseTimeoutAt → q.head? = some t) ∧
    q.countP (fun t => decide (0 < t.leaseTimeoutAt)) ≤ 1 := by
  obtain ⟨hrecs, hhead, htail⟩ := reachable_inv m hm path q hq
  refine ⟨htail, ?_, ?_⟩
  · intro t ht htl
    cases q with
    | nil => exact absurd ht (List.not_mem_nil t)
    | cons h rest =>
      rcases List.mem_cons.mp ht with rfl | htr
      · rfl
      · have := (htail t (by simpa using htr)).1
        rw [this] at htl
        exact absurd htl (by simp)
  · cases q with
    | nil => simp
    | cons h rest =>
      have hzero : rest.countP (fun t => decide (0 < t.leaseTimeoutAt)) = 0 := by
        rw [List.countP_eq_zero]
        intro t ht
        have := (htail t (by simpa using ht)).1
        simp [this]
      rw [List.countP_cons, hzero]
      split <;> simp

/-- Witness for C4 at the reachable state with holder ticket 1 (lease
deadline 6) and waiter ticket 2 (acquire deadline 102). -/
theorem c4_queue_invariant_witness :
    (∀ t ∈ [(⟨1, 5, 0, 6⟩ : ticketImpl), ⟨2, 5, 102, 0⟩].drop 1,
      t.leaseTimeoutAt = 0 ∧ 0 < t.acquireTimeoutAt) ∧
    (∀ t ∈ [(⟨1, 5, 0, 6⟩ : ticketImpl), ⟨2, 5, 102, 0⟩], 0 < t.leaseTimeoutAt →
      [(⟨1, 5, 0, 6⟩ : ticketImpl), ⟨2, 5, 102, 0⟩].head? = some t) ∧
    [(⟨1, 5, 0, 6⟩ : ticketImpl), ⟨2, 5, 102, 0⟩].countP
      (fun t => decide (0 < t.leaseTimeoutAt)) ≤ 1 :=
  c4_queue_invariant witnessManager2 "a" [⟨1, 5, 0, 6⟩, ⟨2, 5, 102, 0⟩]
    (Reachable.step
      (Reachable.step (Reachable.init 1)
        (Step.acquire (newManager 1) "a" 50 5 1 (by decide) (by decide) (by decide)))
      (Step.acquire witnessManager1 "a" 100 5 2 (by decide) (by decide) (by decide)))
    (by decide)

end Distlock
